import Mathlib

/-!
Verification of the asset base-path resolver of the N2bio single-page site
(src/src/App.jsx).  The resolver consists of four small JavaScript
functions: ensureSlash, normalizePathname, resolveBaseUrl and
baseFromPathname.  We embed them shallowly: JavaScript strings become
lists of characters (`Str`), an absent value (null / undefined / a
non-string) becomes `none`, and the two ambient reads of resolveBaseUrl
(the build-time configuration value import.meta.env.BASE_URL and the
runtime value window.location.pathname) become explicit parameters, each
`none` when the corresponding data source is unavailable.  All functions
are total, mirroring the fact that the JavaScript originals cannot throw
on string-or-absent inputs.
-/

/-- A JavaScript string, embedded as a list of characters. -/
abbrev Str := List Char

/-- The JavaScript expression p || d for a string-or-absent p and a
default string d: null, undefined and the empty string (the only falsy
string) are replaced by the default. -/
def jsOr (p : Option Str) (d : Str) : Str :=
  match p with
  | none => d
  | some s => if s = [] then d else s

/-- The regex replacement used by normalizePathname: every run of two or
more consecutive slash characters collapses to a single slash.
Collapsing each adjacent pair left to right yields exactly the behaviour
of replacing maximal slash runs with one slash. -/
def collapseSlashes : Str → Str
  | [] => []
  | [c] => [c]
  | a :: b :: rest =>
    if a = '/' ∧ b = '/' then collapseSlashes (b :: rest)
    else a :: collapseSlashes (b :: rest)

/-- normalizePathname(p) from App.jsx: (p || "/") with runs of slashes
collapsed to one slash. -/
def normalizePathname (p : Option Str) : Str :=
  collapseSlashes (jsOr p ['/'])

/-- Prepend a character to the first chunk of a split result; used to
state the JavaScript String.split semantics recursively. -/
def consHead (a : Char) : List Str → List Str
  | [] => [[a]]
  | s :: ss => (a :: s) :: ss

/-- JavaScript s.split(sep) for a one-character separator: the list of
(possibly empty) chunks between separator occurrences.  The empty string
splits to one empty chunk, matching "".split("/") = [""]. -/
def splitOnChar (c : Char) : Str → List Str
  | [] => [[]]
  | a :: rest =>
    if a = c then [] :: splitOnChar c rest
    else consHead a (splitOnChar c rest)

/-- path.split("/").filter(Boolean) from App.jsx: the non-empty chunks of
a path.  Boolean(s) is true exactly for non-empty strings. -/
def segsOf (path : Str) : List Str :=
  (splitOnChar '/' path).filter (fun s => !s.isEmpty)

/-- ensureSlash(s) from App.jsx: a non-string or empty input yields the
root "/"; otherwise a trailing slash is appended unless already present.
s.endsWith(slash) is embedded as the last character being a slash. -/
def ensureSlash (s : Option Str) : Str :=
  match s with
  | none => ['/']
  | some s =>
    if s = [] then ['/']
    else if s.getLast? = some '/' then s else s ++ ['/']

/-- baseFromPathname(pathname) from App.jsx: normalize (pathname || "/"),
split on slashes discarding empty chunks, and return "/" when no chunk
remains, otherwise "/" + first chunk + "/". -/
def baseFromPathname (pathname : Option Str) : Str :=
  match segsOf (normalizePathname (some (jsOr pathname ['/']))) with
  | s :: _ => '/' :: (s ++ ['/'])
  | [] => ['/']

/-- The window branch and final fallback of resolveBaseUrl: when a
runtime location is observable (loc = some p, with p the value of
window.location.pathname) derive the base from its first path segment,
otherwise return the root "/".  This mirrors lines 24-30 of App.jsx. -/
def resolveBaseFromLoc (loc : Option Str) : Str :=
  match loc with
  | some p =>
    match segsOf (normalizePathname (some (jsOr (some p) ['/']))) with
    | s :: _ => '/' :: (s ++ ['/'])
    | [] => ['/']
  | none => ['/']

/-- resolveBaseUrl() from App.jsx as a function of its two ambient
inputs: config is import.meta.env.BASE_URL (none when import.meta or the
env object is unavailable or the value is not a string, in which case the
try/catch and typeof checks make the code fall through), loc is
window.location.pathname (none when window or window.location is
unavailable).  A present non-empty config string wins; otherwise the
location branch runs; the final default is the root "/". -/
def resolveBaseUrl (config : Option Str) (loc : Option Str) : Str :=
  match config with
  | some b => if b ≠ [] then ensureSlash (some b) else resolveBaseFromLoc loc
  | none => resolveBaseFromLoc loc

/-- The BasePath property of beginning with a slash. -/
def startsWithSlash (s : Str) : Prop := s.head? = some '/'

/-- The BasePath property of ending with a slash. -/
def endsWithSlash (s : Str) : Prop := s.getLast? = some '/'

instance (s : Str) : Decidable (startsWithSlash s) := by
  unfold startsWithSlash; infer_instance

instance (s : Str) : Decidable (endsWithSlash s) := by
  unfold endsWithSlash; infer_instance

/-- A collapsed string that contains no two adjacent slashes. -/
def noDbl : Str → Prop
  | [] => True
  | [_] => True
  | a :: b :: rest => ¬(a = '/' ∧ b = '/') ∧ noDbl (b :: rest)

theorem jsOr_slash_ne_nil (p : Option Str) : jsOr p ['/'] ≠ [] := by
  cases p with
  | none => simp [jsOr]
  | some s =>
    by_cases h : s = [] <;> simp [jsOr, h]

theorem jsOr_of_ne_nil {s : Str} (h : s ≠ []) : jsOr (some s) ['/'] = s := by
  simp [jsOr, h]

theorem collapse_head (l : Str) : (collapseSlashes l).head? = l.head? := by
  induction l with
  | nil => rfl
  | cons a t ih =>
    cases t with
    | nil => rfl
    | cons b rest =>
      by_cases h : a = '/' ∧ b = '/'
      · rw [collapseSlashes, if_pos h, ih]
        simp [h.1, h.2]
      · rw [collapseSlashes, if_neg h]
        rfl

theorem collapse_ne_nil {l : Str} (h : l ≠ []) : collapseSlashes l ≠ [] := by
  cases l with
  | nil => exact absurd rfl h
  | cons a t =>
    intro hc
    have := collapse_head (a :: t)
    rw [hc] at this
    exact Option.noConfusion this

theorem noDbl_collapse (l : Str) : noDbl (collapseSlashes l) := by
  induction l with
  | nil => trivial
  | cons a t ih =>
    cases t with
    | nil => trivial
    | cons b rest =>
      by_cases h : a = '/' ∧ b = '/'
      · rw [collapseSlashes, if_pos h]
        exact ih
      · rw [collapseSlashes, if_neg h]
        cases hc : collapseSlashes (b :: rest) with
        | nil => trivial
        | cons x xs =>
          rw [hc] at ih
          refine ⟨fun hax => ?_, ih⟩
          have hx : some x = some b := by
            have := collapse_head (b :: rest)
            rw [hc] at this
            exact this
          exact h ⟨hax.1, (Option.some.injEq _ _ ▸ hx) ▸ hax.2⟩

theorem collapse_of_noDbl {l : Str} (h : noDbl l) : collapseSlashes l = l := by
  induction l with
  | nil => rfl
  | cons a t ih =>
    cases t with
    | nil => rfl
    | cons b rest =>
      obtain ⟨h1, h2⟩ := h
      rw [collapseSlashes, if_neg h1, ih h2]

theorem collapse_idem (l : Str) : collapseSlashes (collapseSlashes l) = collapseSlashes l :=
  collapse_of_noDbl (noDbl_collapse l)

theorem noDbl_cons_of_ne {a : Char} (ha : a ≠ '/') (t : Str) (ht : noDbl t) :
    noDbl (a :: t) := by
  cases t with
  | nil => trivial
  | cons x xs => exact ⟨fun hc => ha hc.1, ht⟩

theorem noDbl_append_slash {s : Str} (h : '/' ∉ s) : noDbl (s ++ ['/']) := by
  induction s with
  | nil => trivial
  | cons a t ih =>
    have ha : a ≠ '/' := fun hc => h (hc ▸ List.mem_cons_self a t)
    have ht : '/' ∉ t := fun hc => h (List.mem_cons_of_mem a hc)
    exact noDbl_cons_of_ne ha _ (ih ht)

theorem noDbl_slash_wrap {s : Str} (hne : s ≠ []) (hmem : '/' ∉ s) :
    noDbl ('/' :: (s ++ ['/'])) := by
  cases s with
  | nil => exact absurd rfl hne
  | cons x t =>
    have hx : x ≠ '/' := fun hc => hmem (hc ▸ List.mem_cons_self x t)
    exact ⟨fun hc => hx hc.2, noDbl_append_slash hmem⟩

theorem not_mem_of_mem_splitOnChar {c : Char} {l : Str} {s : Str}
    (h : s ∈ splitOnChar c l) : c ∉ s := by
  induction l generalizing s with
  | nil =>
    simp only [splitOnChar, List.mem_singleton] at h
    subst h
    exact List.not_mem_nil c
  | cons a rest ih =>
    by_cases hac : a = c
    · rw [splitOnChar, if_pos hac] at h
      rcases List.mem_cons.mp h with h0 | h0
      · subst h0; exact List.not_mem_nil c
      · exact ih h0
    · rw [splitOnChar, if_neg hac] at h
      cases hs : splitOnChar c rest with
      | nil => rw [hs] at h; simp [consHead] at h; subst h; simpa using Ne.symm hac
      | cons t ts =>
        rw [hs, consHead] at h
        rcases List.mem_cons.mp h with h0 | h0
        · subst h0
          intro hmem
          rcases List.mem_cons.mp hmem with h1 | h1
          · exact hac h1.symm
          · exact ih (hs ▸ List.mem_cons_self t ts) h1
        · exact ih (hs ▸ List.mem_cons_of_mem t h0)

theorem splitOnChar_no_sep {c : Char} {l : Str} (h : c ∉ l) :
    splitOnChar c l = [l] := by
  induction l with
  | nil => rfl
  | cons a rest ih =>
    have hac : a ≠ c := fun hc => h (hc ▸ List.mem_cons_self a rest)
    have hr : c ∉ rest := fun hc => h (List.mem_cons_of_mem a hc)
    rw [splitOnChar, if_neg (fun hc => hac hc), ih hr, consHead]

theorem splitOnChar_append_sep {c : Char} {l₁ : Str} (l₂ : Str) (h : c ∉ l₁) :
    splitOnChar c (l₁ ++ c :: l₂) = l₁ :: splitOnChar c l₂ := by
  induction l₁ with
  | nil => simp [splitOnChar]
  | cons a t ih =>
    have hac : a ≠ c := fun hc => h (hc ▸ List.mem_cons_self a t)
    have ht : c ∉ t := fun hc => h (List.mem_cons_of_mem a hc)
    rw [List.cons_append, splitOnChar, if_neg (fun hc => hac hc), ih ht, consHead]

/-- The segments of a wrapped single segment: splitting "/" + s + "/" on
slashes and discarding empties yields exactly [s], for a non-empty
slash-free s. -/
theorem segsOf_wrap {s : Str} (hne : s ≠ []) (hmem : '/' ∉ s) :
    segsOf ('/' :: (s ++ ['/'])) = [s] := by
  unfold segsOf
  rw [splitOnChar, if_pos rfl, splitOnChar_append_sep [] hmem]
  have hse : s.isEmpty = false := by
    cases s with
    | nil => exact absurd rfl hne
    | cons a t => rfl
  simp [splitOnChar, List.filter, hse]

/-- Every value of baseFromPathname is the root "/" or a single
non-empty slash-free segment wrapped in slashes. -/
theorem base_shape (p : Option Str) :
    baseFromPathname p = ['/'] ∨
    ∃ s, s ≠ [] ∧ '/' ∉ s ∧ baseFromPathname p = '/' :: (s ++ ['/']) := by
  unfold baseFromPathname
  cases hs : segsOf (normalizePathname (some (jsOr p ['/']))) with
  | nil => exact Or.inl rfl
  | cons s rest =>
    refine Or.inr ⟨s, ?_, ?_, rfl⟩
    · have hmem : s ∈ segsOf (normalizePathname (some (jsOr p ['/']))) :=
        hs ▸ List.mem_cons_self s rest
      unfold segsOf at hmem
      have := List.of_mem_filter hmem
      simpa [List.isEmpty_iff] using this
    · have hmem : s ∈ segsOf (normalizePathname (some (jsOr p ['/']))) :=
        hs ▸ List.mem_cons_self s rest
      unfold segsOf at hmem
      exact not_mem_of_mem_splitOnChar (List.mem_of_mem_filter hmem)

/-- baseFromPathname maps a wrapped single segment to itself. -/
theorem base_of_wrap {s : Str} (hne : s ≠ []) (hmem : '/' ∉ s) :
    baseFromPathname (some ('/' :: (s ++ ['/']))) = '/' :: (s ++ ['/']) := by
  have hw : ('/' :: (s ++ ['/'])) ≠ [] := by simp
  unfold baseFromPathname normalizePathname
  rw [jsOr_of_ne_nil (jsOr_slash_ne_nil _), jsOr_of_ne_nil hw,
    collapse_of_noDbl (noDbl_slash_wrap hne hmem), segsOf_wrap hne hmem]

theorem endsWithSlash_wrap (s : Str) : endsWithSlash ('/' :: (s ++ ['/'])) := by
  show (('/' :: s) ++ ['/']).getLast? = some '/'
  rw [List.getLast?_append_cons]
  rfl

theorem base_starts (p : Option Str) : startsWithSlash (baseFromPathname p) := by
  rcases base_shape p with h | ⟨s, hne, hmem, h⟩ <;> rw [h] <;> rfl

theorem base_ends (p : Option Str) : endsWithSlash (baseFromPathname p) := by
  rcases base_shape p with h | ⟨s, hne, hmem, h⟩
  · rw [h]; rfl
  · rw [h]; exact endsWithSlash_wrap s

theorem ensureSlash_last (s : Option Str) : endsWithSlash (ensureSlash s) := by
  cases s with
  | none => rfl
  | some s =>
    by_cases h0 : s = []
    · simp only [ensureSlash, if_pos h0]; rfl
    · by_cases h1 : s.getLast? = some '/'
      · simp only [ensureSlash, if_neg h0, if_pos h1]
        exact h1
      · simp only [ensureSlash, if_neg h0, if_neg h1]
        show (s ++ ['/']).getLast? = some '/'
        rw [List.getLast?_append_cons]
        rfl

theorem ensureSlash_of_ends {s : Str} (h : endsWithSlash s) :
    ensureSlash (some s) = s := by
  have h0 : s ≠ [] := by
    intro hc
    subst hc
    exact Option.noConfusion h
  have h1 : s.getLast? = some '/' := h
  simp only [ensureSlash, if_neg h0, if_pos h1]

theorem ensureSlash_head {s : Str} (h : s ≠ []) :
    (ensureSlash (some s)).head? = s.head? := by
  by_cases h1 : s.getLast? = some '/'
  · simp only [ensureSlash, if_neg h, if_pos h1]
  · simp only [ensureSlash, if_neg h, if_neg h1]
    cases s with
    | nil => exact absurd rfl h
    | cons a t => rfl

theorem resolveBaseFromLoc_eq (loc : Option Str) :
    resolveBaseFromLoc loc = baseFromPathname loc := by
  cases loc <;> rfl

theorem resolveBaseUrl_none (loc : Option Str) :
    resolveBaseUrl none loc = baseFromPathname loc :=
  resolveBaseFromLoc_eq loc

theorem resolveBaseUrl_some_nil (loc : Option Str) :
    resolveBaseUrl (some []) loc = baseFromPathname loc :=
  resolveBaseFromLoc_eq loc

theorem resolveBaseUrl_config {b : Str} (h : b ≠ []) (loc : Option Str) :
    resolveBaseUrl (some b) loc = ensureSlash (some b) := by
  simp only [resolveBaseUrl, if_pos h]

/-! Claim theorems. -/

/-- C1, counterexample: the claim that every value returned by
resolveBaseUrl begins and ends with a slash fails when the build-time
configuration is the string "x": the code only appends a trailing slash
to a configured override and never adds a leading one, so the result is
"x/", which does not begin with a slash. -/
theorem c1_counterexample :
    ¬ (startsWithSlash (resolveBaseUrl (some "x".toList) none) ∧
       endsWithSlash (resolveBaseUrl (some "x".toList) none)) := by
  decide

/-- C1, amended: every value returned by resolveBaseUrl ends with a
slash; it also begins with a slash unless it comes from a present
non-empty configuration override whose string does not itself begin with
a slash (values from the runtime pathname and the final default always
begin with a slash). -/
theorem c1_amended_basepath (c loc : Option Str) :
    endsWithSlash (resolveBaseUrl c loc) ∧
    (startsWithSlash (resolveBaseUrl c loc) ∨
      ∃ b, c = some b ∧ b ≠ [] ∧ b.head? ≠ some '/') := by
  cases c with
  | none =>
    rw [resolveBaseUrl_none]
    exact ⟨base_ends loc, Or.inl (base_starts loc)⟩
  | some b =>
    by_cases hb : b = []
    · subst hb
      rw [resolveBaseUrl_some_nil]
      exact ⟨base_ends loc, Or.inl (base_starts loc)⟩
    · rw [resolveBaseUrl_config hb]
      refine ⟨ensureSlash_last (some b), ?_⟩
      by_cases hh : b.head? = some '/'
      · refine Or.inl ?_
        show (ensureSlash (some b)).head? = some '/'
        rw [ensureSlash_head hb, hh]
      · exact Or.inr ⟨b, rfl, hb, hh⟩

/-- C2: for every string or absent input p, baseFromPathname p starts
with a slash and ends with a slash. -/
theorem c2_base_starts_ends (p : Option Str) :
    startsWithSlash (baseFromPathname p) ∧ endsWithSlash (baseFromPathname p) :=
  ⟨base_starts p, base_ends p⟩

/-- C3: when the collapsed input has no non-empty segment the result is
the root "/"; when it has at least one, the result is "/" + first
segment + "/", all deeper segments ignored; and the result itself
contains at most one non-empty segment. -/
theorem c3_first_segment (p : Option Str) :
    (segsOf (normalizePathname (some (jsOr p ['/']))) = [] →
      baseFromPathname p = ['/']) ∧
    (∀ s rest, segsOf (normalizePathname (some (jsOr p ['/']))) = s :: rest →
      baseFromPathname p = '/' :: (s ++ ['/'])) ∧
    (segsOf (baseFromPathname p)).length ≤ 1 := by
  refine ⟨fun h => ?_, fun s rest h => ?_, ?_⟩
  · unfold baseFromPathname
    rw [h]
  · unfold baseFromPathname
    rw [h]
  · rcases base_shape p with h | ⟨s, hne, hmem, h⟩
    · rw [h]
      decide
    · rw [h, segsOf_wrap hne hmem]
      exact le_refl 1

/-- C4: the eight literal scenarios of the spec (and of the embedded
test table in App.jsx) evaluate as listed. -/
theorem c4_literal_scenarios :
    baseFromPathname (some "/".toList) = "/".toList ∧
    baseFromPathname (some "/N2bio/".toList) = "/N2bio/".toList ∧
    baseFromPathname (some "/N2bio/index.html".toList) = "/N2bio/".toList ∧
    baseFromPathname (some "/foo/bar".toList) = "/foo/".toList ∧
    baseFromPathname (some "/N2bio".toList) = "/N2bio/".toList ∧
    baseFromPathname (some "".toList) = "/".toList ∧
    baseFromPathname none = "/".toList ∧
    baseFromPathname (some "//N2bio//index.html".toList) = "/N2bio/".toList := by
  decide

/-- C5: baseFromPathname is invariant under collapsing runs of slashes
in its input. -/
theorem c5_collapse_invariant (p : Option Str) :
    baseFromPathname p = baseFromPathname (Option.map collapseSlashes p) := by
  cases p with
  | none => rfl
  | some s =>
    by_cases h : s = []
    · subst h
      rfl
    · show baseFromPathname (some s) = baseFromPathname (some (collapseSlashes s))
      unfold baseFromPathname normalizePathname
      rw [jsOr_of_ne_nil (jsOr_slash_ne_nil _), jsOr_of_ne_nil (jsOr_slash_ne_nil _),
        jsOr_of_ne_nil h, jsOr_of_ne_nil (collapse_ne_nil h), collapse_idem]

/-- C6: a present non-empty configuration override always wins: the
result is ensureSlash of the override and the runtime pathname has no
influence. -/
theorem c6_config_wins (b : Str) (loc : Option Str) (h : b ≠ []) :
    resolveBaseUrl (some b) loc = ensureSlash (some b) :=
  resolveBaseUrl_config h loc

theorem c6_config_wins_witness :
    "/app".toList ≠ ([] : Str) ∧
    resolveBaseUrl (some "/app".toList) (some "/other/path".toList) =
      ensureSlash (some "/app".toList) :=
  ⟨by decide, c6_config_wins "/app".toList (some "/other/path".toList) (by decide)⟩

/-- C7: for every non-empty string s, ensureSlash s ends with a slash;
it returns s unchanged when s already ends with a slash, returns s with
one slash appended otherwise, and is idempotent. -/
theorem c7_ensureSlash_spec (s : Str) (h : s ≠ []) :
    endsWithSlash (ensureSlash (some s)) ∧
    (endsWithSlash s → ensureSlash (some s) = s) ∧
    (¬ endsWithSlash s → ensureSlash (some s) = s ++ ['/']) ∧
    ensureSlash (some (ensureSlash (some s))) = ensureSlash (some s) := by
  refine ⟨ensureSlash_last (some s), fun he => ensureSlash_of_ends he, fun hne => ?_,
    ensureSlash_of_ends (ensureSlash_last (some s))⟩
  have h1 : ¬ s.getLast? = some '/' := hne
  simp only [ensureSlash, if_neg h, if_neg h1]

theorem c7_ensureSlash_spec_witness :
    "a".toList ≠ ([] : Str) ∧
    (endsWithSlash (ensureSlash (some "a".toList)) ∧
     (endsWithSlash "a".toList → ensureSlash (some "a".toList) = "a".toList) ∧
     (¬ endsWithSlash "a".toList →
       ensureSlash (some "a".toList) = "a".toList ++ ['/']) ∧
     ensureSlash (some (ensureSlash (some "a".toList))) =
       ensureSlash (some "a".toList)) :=
  ⟨by decide, c7_ensureSlash_spec "a".toList (by decide)⟩

/-- C8: when the configuration is absent or empty and no runtime
location is observable, resolveBaseUrl returns the root "/".  That no
operation can raise is reflected in the embedding being total: every
definition above returns a plain string on every input, with no error
channel, mirroring the try/catch and typeof guards of the source. -/
theorem c8_defaults_to_root (c : Option Str) (h : c = none ∨ c = some []) :
    resolveBaseUrl c none = ['/'] := by
  rcases h with h | h <;> subst h <;> rfl

theorem c8_defaults_to_root_witness :
    ((some [] : Option Str) = none ∨ (some [] : Option Str) = some []) ∧
    resolveBaseUrl (some []) none = ['/'] :=
  ⟨Or.inr rfl, c8_defaults_to_root (some []) (Or.inr rfl)⟩

/-- C9: resolveBaseUrl is a deterministic function of its two ambient
inputs: two invocations observing the same configuration value and the
same runtime pathname return identical results.  Statelessness is
reflected in the embedding: resolveBaseUrl is a pure function whose only
inputs are the two ambient values, mirroring a source body that reads
import.meta.env.BASE_URL and window.location.pathname and writes
nothing. -/
theorem c9_deterministic (c1 l1 c2 l2 : Option Str) (hc : c1 = c2) (hl : l1 = l2) :
    resolveBaseUrl c1 l1 = resolveBaseUrl c2 l2 := by
  rw [hc, hl]

theorem c9_deterministic_witness :
    ((some "/a".toList : Option Str) = some "/a".toList) ∧
    ((some "/p/q".toList : Option Str) = some "/p/q".toList) ∧
    resolveBaseUrl (some "/a".toList) (some "/p/q".toList) =
      resolveBaseUrl (some "/a".toList) (some "/p/q".toList) :=
  ⟨rfl, rfl,
    c9_deterministic (some "/a".toList) (some "/p/q".toList)
      (some "/a".toList) (some "/p/q".toList) rfl rfl⟩

/-- C10: baseFromPathname is idempotent: feeding a resolved base back in
returns it unchanged. -/
theorem c10_base_idempotent (p : Option Str) :
    baseFromPathname (some (baseFromPathname p)) = baseFromPathname p := by
  rcases base_shape p with h | ⟨s, hne, hmem, h⟩
  · rw [h]
    decide
  · rw [h]
    exact base_of_wrap hne hmem
